import Mathlib

/-!
Verification of the GoSize disk scanner (src/main.go): the top-K min-heap
selector, the recursive directory walker with its counters, depth limit,
cancellation and error classification, and the semaphore-based admission
control for subtree concurrency.
-/

set_option linter.unusedVariables false

namespace GoSize

/-- Model of `item` (src/main.go lines 27-30): a path with its total size.
Sizes are Go int64 values, modelled as unbounded integers (realistic file
sizes are far below the int64 range, so wraparound never occurs). -/
structure item where
  Path : String
  Size : Int
deriving DecidableEq, Repr

instance : Inhabited item := ⟨⟨"", 0⟩⟩

/-- Model of `minHeap` (src/main.go lines 34-38): the backing slice and the
capacity `k`. The mutex only serializes access and has no sequential
content, so it is dropped. -/
structure minHeap where
  data : List item
  k : Int
deriving DecidableEq, Repr

/-- Go slice indexing `d[i]`; all accesses in the source are in bounds, so
the default value is never observable. -/
def idx (d : List item) (i : Nat) : item := d.getD i default

/-- The parallel swap `h.data[i], h.data[j] = h.data[j], h.data[i]`. -/
def lswap (d : List item) (i j : Nat) : List item :=
  (d.set i (idx d j)).set j (idx d i)

/-- Model of `minHeap.up` (src/main.go lines 59-68): sift the element at
index `i` up while it is smaller than its parent. -/
def minHeap.up (d : List item) (i : Nat) : List item :=
  if h : 0 < i then
    let p := (i - 1) / 2
    if (idx d p).Size ≤ (idx d i).Size then d
    else minHeap.up (lswap d p i) p
  else d
termination_by i
decreasing_by omega

/-- The index `small` computed by the body of `minHeap.down` (src/main.go
lines 73-81): the position holding the smallest size among position `i` and
its in-range children. -/
def downSmall (d : List item) (i : Nat) : Nat :=
  let n := d.length
  let l := 2 * i + 1
  let r := l + 1
  let s1 := if l < n ∧ (idx d l).Size < (idx d i).Size then l else i
  if r < n ∧ (idx d r).Size < (idx d s1).Size then r else s1

/-- When `downSmall` picks a child, that child index lies strictly between
`i` and the length; stated as a definition so it can justify the
termination of `minHeap.down` below. -/
def downSmall_lt (d : List item) (i : Nat) (h : downSmall d i ≠ i) :
    i < downSmall d i ∧ downSmall d i < d.length := by
  simp only [downSmall] at *
  split_ifs at * <;> omega

/-- Model of `minHeap.down` (src/main.go lines 70-88): sift the element at
index `i` down while it is larger than its smaller child. -/
def minHeap.down (d : List item) (i : Nat) : List item :=
  let s2 := downSmall d i
  if hs : s2 = i then d else minHeap.down (lswap d i s2) s2
termination_by d.length - i
decreasing_by
  have hlt := downSmall_lt d i hs
  simp only [lswap, List.length_set]
  omega

/-- Model of `minHeap.push` (src/main.go lines 41-57): keep only the largest
`k` elements; discard everything when `k <= 0`; below capacity, append and
sift up; at capacity, replace the root only when strictly larger. -/
def minHeap.push (h : minHeap) (it : item) : minHeap :=
  if h.k ≤ 0 then h
  else if (h.data.length : Int) < h.k then
    { h with data := minHeap.up (h.data ++ [it]) h.data.length }
  else if it.Size > (idx h.data 0).Size then
    { h with data := minHeap.down (h.data.set 0 it) 0 }
  else h

/-- Descending comparison used to model `sort.Slice` with
`out[i].Size > out[j].Size` (src/main.go line 96). -/
def sizeGE (a b : item) : Bool := b.Size ≤ a.Size

/-- Model of `minHeap.sortedDesc` (src/main.go lines 91-98): a snapshot of
the heap contents sorted by size, largest first. `sort.Slice` is modelled
by merge sort; the source comparator is not stable either, and every claim
about the snapshot is insensitive to the order of equal sizes. -/
def minHeap.sortedDesc (h : minHeap) : List item :=
  h.data.mergeSort sizeGE

/-- The heap constructed by `&minHeap{k: cfg.topK}` (src/main.go lines
230-231). -/
def mkHeap (K : Int) : minHeap := ⟨[], K⟩

/-- A sequence of pushes, in order. -/
def pushAll (h : minHeap) (l : List item) : minHeap := l.foldl minHeap.push h

/-- Model of `walkCfg` (src/main.go lines 154-162); `showProgress` only
drives the excluded progress printer and is dropped. -/
structure walkCfg where
  topK : Int
  workers : Nat
  followLinks : Bool
  maxDepth : Int
  skipHidden : Bool
  skipPatterns : List String
deriving DecidableEq, Repr

/-- Model of `stats` (src/main.go lines 165-170): the four atomically
updated counters. -/
structure stats where
  filesSeen : Int
  dirsSeen : Int
  skipped : Int
  errors : Int
deriving DecidableEq, Repr

/-- The errors walkDir can observe: a permission failure, any other I/O
failure, and the context cancellation error. -/
inductive WErr where
  | permission
  | ioErr
  | canceled
deriving DecidableEq, Repr

/-- Model of `isIgnorable` (src/main.go lines 435-441):
`errors.Is(err, fs.ErrPermission)`. -/
def isIgnorable : WErr → Bool
  | .permission => true
  | _ => false

/-- A filesystem node as walkDir observes it through `os.ReadDir` and
`DirEntry.Info`. `ReadDir` and `DirEntry` never follow symbolic links: a
symlink entry reports `IsDir() = false` and a non-regular symlink mode
whatever its target is, so `.symlink` carries no target. `.statErr` is an
entry whose `Info()` call fails; `.special` is a non-regular, non-directory,
non-symlink node (device file etc.); `.dirErr` is a directory whose listing
fails, with the permission flag of the failure. -/
inductive FsTree where
  | file (size : Int)
  | special
  | symlink
  | statErr
  | dirOk (entries : List (String × FsTree))
  | dirErr (perm : Bool)

/-- `DirEntry.IsDir()` for the modelled node. -/
def FsTree.isDir : FsTree → Bool
  | .dirOk _ => true
  | .dirErr _ => true
  | _ => false

/-- Whether `DirEntry.Info()` succeeds for the modelled node. -/
def FsTree.infoOk : FsTree → Bool
  | .statErr => false
  | _ => true

/-- Whether `info.Mode() & fs.ModeSymlink != 0` for the modelled node. -/
def FsTree.isSymlink : FsTree → Bool
  | .symlink => true
  | _ => false

/-- Whether `info.Mode().IsRegular()` for the modelled node. -/
def FsTree.isRegular : FsTree → Bool
  | .file _ => true
  | _ => false

/-- `info.Size()` for the modelled node (only read on regular files). -/
def FsTree.size : FsTree → Int
  | .file s => s
  | _ => 0

/-- Model of `filepath.Join(path, name)` for the traversal; the separator
choice is irrelevant to every claim. -/
def pathJoin (dir name : String) : String := dir ++ "/" ++ name

/-- Model of the stdlib `filepath.Match` for patterns made of literal
characters and the `*` and `?` wildcards, which do not cross the path
separator; character classes are not modelled. -/
def globMatch : List Char → List Char → Bool
  | [], [] => true
  | [], _ :: _ => false
  | '*' :: ps, [] => globMatch ps []
  | '*' :: ps, c :: cs =>
      globMatch ps (c :: cs) || (c ≠ '/' && globMatch ('*' :: ps) cs)
  | '?' :: ps, c :: cs => (c ≠ '/' && globMatch ps cs)
  | '?' :: _, [] => false
  | p :: ps, c :: cs => (p = c && globMatch ps cs)
  | _ :: _, [] => false
termination_by ps cs => (ps.length, cs.length)

/-- Model of `shouldSkipByGlob` (src/main.go lines 444-452). -/
def shouldSkipByGlob (path : String) (patterns : List String) : Bool :=
  patterns.any fun p => globMatch p.toList path.toList

/-- The cross-task mutable state walkDir writes to: the two selectors and
the counters. -/
structure WalkState where
  fileTop : minHeap
  dirTop : minHeap
  s : stats
deriving DecidableEq, Repr

def WalkState.addSkipped (w : WalkState) : WalkState :=
  { w with s := { w.s with skipped := w.s.skipped + 1 } }

def WalkState.addErrors (w : WalkState) : WalkState :=
  { w with s := { w.s with errors := w.s.errors + 1 } }

def WalkState.addFiles (w : WalkState) : WalkState :=
  { w with s := { w.s with filesSeen := w.s.filesSeen + 1 } }

def WalkState.addDirs (w : WalkState) : WalkState :=
  { w with s := { w.s with dirsSeen := w.s.dirsSeen + 1 } }

def WalkState.pushFile (w : WalkState) (it : item) : WalkState :=
  { w with fileTop := w.fileTop.push it }

def WalkState.pushDir (w : WalkState) (it : item) : WalkState :=
  { w with dirTop := w.dirTop.push it }

/-- Result of one walkDir call: the aggregate it returns, the error it
returns, and the shared state after the call. -/
structure WalkRes where
  total : Int
  err : Option WErr
  st : WalkState
deriving DecidableEq, Repr

mutual

/-- Model of `walkDir` (src/main.go lines 325-419). The concurrent fan-out
only affects scheduling: the aggregate is a commutative sum, the counters
are commutative atomic increments, and the set of selector pushes is the
same on the synchronous and asynchronous paths, so the sequential model
computes the same aggregate, error, counters and pushes as the Go code
(push interleaving aside, which no claim depends on). `canceled` is the
state of the context token observed by the `select` at entry. -/
def walkDir (canceled : Bool) (path : String) (t : FsTree) (depth : Nat)
    (cfg : walkCfg) (st : WalkState) : WalkRes :=
  if canceled then ⟨0, some .canceled, st⟩
  else if cfg.maxDepth > 0 ∧ (depth : Int) > cfg.maxDepth then
    ⟨0, none, st.addSkipped⟩
  else
    match t with
    | .dirOk entries =>
      let r := walkEntries canceled path entries depth cfg st.addDirs
      ⟨r.1, none, r.2⟩
    | .dirErr perm =>
      ⟨0, some (if perm then .permission else .ioErr), st.addErrors⟩
    | _ => ⟨0, some .ioErr, st.addErrors⟩
termination_by (sizeOf t, 0)

/-- One iteration of the entry loop of `walkDir` (src/main.go lines
350-414): the contribution of the entry `(name, t)` to the running total,
and the shared state after processing it. -/
def entryStep (canceled : Bool) (path name : String) (t : FsTree)
    (depth : Nat) (cfg : walkCfg) (st : WalkState) : Int × WalkState :=
  let full := pathJoin path name
  if shouldSkipByGlob full cfg.skipPatterns then (0, st.addSkipped)
  else if !t.infoOk then (0, st.addErrors)
  else if t.isSymlink && !cfg.followLinks then (0, st.addSkipped)
  else if cfg.skipHidden && name.startsWith "." then (0, st.addSkipped)
  else if t.isDir then
    let r := walkDir canceled full t (depth + 1) cfg st
    match r.err with
    | none => (r.total, r.st.pushDir ⟨full, r.total⟩)
    | some e => if isIgnorable e then (0, r.st) else (0, r.st.addErrors)
  else if t.isRegular then
    (t.size, (st.addFiles).pushFile ⟨full, t.size⟩)
  else (0, st)
termination_by (sizeOf t, 1)

/-- The entry loop of `walkDir` (src/main.go lines 349-415), processing the
listed entries in order and accumulating the running total. -/
def walkEntries (canceled : Bool) (path : String)
    (es : List (String × FsTree)) (depth : Nat) (cfg : walkCfg)
    (st : WalkState) : Int × WalkState :=
  match es with
  | [] => (0, st)
  | (name, t) :: rest =>
    let step := entryStep canceled path name t depth cfg st
    let rest₂ := walkEntries canceled path rest depth cfg step.2
    (step.1 + rest₂.1, rest₂.2)
termination_by (sizeOf es, 0)

end

/-- Model of the non-blocking admission on the buffered channel
`sem := make(chan struct{}, cfg.workers)` (src/main.go lines 234-235,
379-404): `held` is the number of tokens in the channel; the `select`
dispatches asynchronously exactly when a buffer slot is free, otherwise the
`default` branch runs the subtree synchronously. -/
def trySpawn (cap held : Nat) : Nat × Bool :=
  if held < cap then (held + 1, true) else (held, false)

/-- One transition of the admission state: a successful admission
(`sem <- struct{}{}` inside the `select`), a saturated attempt falling to
the `default` synchronous branch, or a completed goroutine releasing its
token (`<-sem` in its deferred call). -/
inductive SemStep (cap : Nat) : Nat → Nat → Prop where
  | spawn {h : Nat} : h < cap → SemStep cap h (h + 1)
  | syncRun {h : Nat} : ¬ h < cap → SemStep cap h h
  | release {h : Nat} : SemStep cap (h + 1) h

/-- Admission states reachable from the empty channel. -/
inductive SemReach (cap : Nat) : Nat → Prop where
  | init : SemReach cap 0
  | step {h h' : Nat} : SemReach cap h → SemStep cap h h' → SemReach cap h'

/-- A fixed baseline shared state, used to express that the aggregate and
the error returned by a walkDir call do not depend on the shared state. -/
def baseState : WalkState := ⟨mkHeap 0, mkHeap 0, ⟨0, 0, 0, 0⟩⟩

/-- Aggregate contribution of one directory entry, following the spec
(section 4.2): an immediate regular-file child not skipped by configuration
contributes its size; an immediate subdirectory child whose recursive
traversal returns without error contributes its recursive aggregate; every
other entry, including non-regular non-directory non-symlink nodes,
contributes 0. -/
def entryContrib (path : String) (depth : Nat) (cfg : walkCfg) :
    String × FsTree → Int
  | (name, t) =>
    let full := pathJoin path name
    if shouldSkipByGlob full cfg.skipPatterns then 0
    else if !t.infoOk then 0
    else if t.isSymlink && !cfg.followLinks then 0
    else if cfg.skipHidden && name.startsWith "." then 0
    else if t.isDir then
      let r := walkDir false full t (depth + 1) cfg baseState
      match r.err with
      | none => r.total
      | some _ => 0
    else if t.isRegular then t.size
    else 0

/-- The binary min-heap law on the backing slice: every element is at least
its parent. -/
def IsHeap (d : List item) : Prop :=
  ∀ j, 0 < j → j < d.length → (idx d ((j - 1) / 2)).Size ≤ (idx d j).Size

/-- Sift-up loop invariant: the heap law holds except possibly on the edge
from the parent of `i` into `i`, and in addition the parent of `i` is
already no larger than the children of `i`. -/
def AlmostHeapUp (d : List item) (i : Nat) : Prop :=
  (∀ j, 0 < j → j < d.length → j ≠ i →
    (idx d ((j - 1) / 2)).Size ≤ (idx d j).Size) ∧
  (∀ c, c < d.length → (c = 2 * i + 1 ∨ c = 2 * i + 2) → 0 < i →
    (idx d ((i - 1) / 2)).Size ≤ (idx d c).Size)

/-- Sift-down loop invariant: the heap law holds except possibly on the
edges from `i` into its children, and in addition the parent of `i` is
already no larger than the children of `i`. -/
def AlmostHeapDown (d : List item) (i : Nat) : Prop :=
  (∀ j, 0 < j → j < d.length → (j - 1) / 2 ≠ i →
    (idx d ((j - 1) / 2)).Size ≤ (idx d j).Size) ∧
  (∀ c, c < d.length → (c = 2 * i + 1 ∨ c = 2 * i + 2) → 0 < i →
    (idx d ((i - 1) / 2)).Size ≤ (idx d c).Size)

/-- The selection invariant of a top-K selector: the held elements form a
sub-multiset of everything pushed so far, their number is `min(K, pushes)`
(with `K ≤ 0` behaving as 0), and every discarded element is no larger than
every held element. -/
def Selects (K : Int) (held pushed : List item) : Prop :=
  (held : Multiset item) ≤ (pushed : Multiset item) ∧
  (held.length : Int) = min (max K 0) pushed.length ∧
  ∀ x ∈ (pushed : Multiset item) - (held : Multiset item),
    ∀ y ∈ held, x.Size ≤ y.Size

/-! ## Basic unfolding lemmas for the walker -/

theorem walkEntries_nil (c : Bool) (p : String) (d : Nat) (cfg : walkCfg)
    (st : WalkState) : walkEntries c p [] d cfg st = (0, st) := by
  rw [walkEntries.eq_def]

theorem walkEntries_cons (c : Bool) (p name : String) (t : FsTree)
    (rest : List (String × FsTree)) (d : Nat) (cfg : walkCfg)
    (st : WalkState) :
    walkEntries c p ((name, t) :: rest) d cfg st =
      ((entryStep c p name t d cfg st).1 +
        (walkEntries c p rest d cfg (entryStep c p name t d cfg st).2).1,
       (walkEntries c p rest d cfg (entryStep c p name t d cfg st).2).2) := by
  rw [walkEntries.eq_def]

theorem walkDir_dirOk (c : Bool) (p : String) (es : List (String × FsTree))
    (d : Nat) (cfg : walkCfg) (st : WalkState) (hc : c = false)
    (hd : ¬(cfg.maxDepth > 0 ∧ (d : Int) > cfg.maxDepth)) :
    walkDir c p (.dirOk es) d cfg st =
      ⟨(walkEntries c p es d cfg st.addDirs).1, none,
       (walkEntries c p es d cfg st.addDirs).2⟩ := by
  subst hc
  rw [walkDir.eq_def]
  simp [hd]

theorem walkDir_dirErr (perm : Bool) (p : String) (d : Nat) (cfg : walkCfg)
    (st : WalkState)
    (hd : ¬(cfg.maxDepth > 0 ∧ (d : Int) > cfg.maxDepth)) :
    walkDir false p (.dirErr perm) d cfg st =
      ⟨0, some (if perm then .permission else .ioErr), st.addErrors⟩ := by
  rw [walkDir.eq_def]
  simp [hd]

/-- Every directory node passes the metadata and symlink tests. -/
theorem isDir_fields (t : FsTree) (h : t.isDir = true) :
    t.infoOk = true ∧ t.isSymlink = false ∧ t.isRegular = false := by
  cases t <;> simp_all [FsTree.isDir, FsTree.infoOk, FsTree.isSymlink,
    FsTree.isRegular]

theorem walkEntries_append (c : Bool) (p : String)
    (es₁ es₂ : List (String × FsTree)) (d : Nat) (cfg : walkCfg)
    (st : WalkState) :
    walkEntries c p (es₁ ++ es₂) d cfg st =
      ((walkEntries c p es₁ d cfg st).1 +
        (walkEntries c p es₂ d cfg (walkEntries c p es₁ d cfg st).2).1,
       (walkEntries c p es₂ d cfg (walkEntries c p es₁ d cfg st).2).2) := by
  induction es₁ generalizing st with
  | nil => simp [walkEntries_nil]
  | cons e rest ih =>
    obtain ⟨name, t⟩ := e
    simp only [List.cons_append, walkEntries_cons, ih, add_assoc]

/-! ## Claim theorems for the walker -/

/-- C7: a walkDir call made while the cancellation token is set returns
immediately with a cancellation error and aggregate 0, with the shared
state untouched: no listing is counted, no counter moves, no push
happens. -/
theorem walkDir_cancellation (path : String) (t : FsTree) (depth : Nat)
    (cfg : walkCfg) (st : WalkState) :
    walkDir true path t depth cfg st = ⟨0, some .canceled, st⟩ := by
  rw [walkDir.eq_def]
  simp

/-- C4: with a configured maximum depth `D > 0` and current depth
strictly greater than `D`, walkDir increments the skipped counter by
exactly one and returns aggregate 0 with no error; the directory is not
counted as seen and no error is recorded (the returned state differs from
the input state only in the skipped counter). -/
theorem walkDir_depth_skip (path : String) (t : FsTree) (depth : Nat)
    (cfg : walkCfg) (st : WalkState) (hD : cfg.maxDepth > 0)
    (hd : (depth : Int) > cfg.maxDepth) :
    walkDir false path t depth cfg st = ⟨0, none, st.addSkipped⟩ := by
  rw [walkDir.eq_def]
  simp [hD, hd]

/-- Witness for C4 at a concrete input. -/
theorem walkDir_depth_skip_witness :
    walkDir false "r" (.dirOk [("a", .file 5)]) 3 ⟨20, 4, false, 2, false, []⟩
        ⟨mkHeap 20, mkHeap 20, ⟨0, 0, 0, 0⟩⟩ =
      ⟨0, none, WalkState.addSkipped ⟨mkHeap 20, mkHeap 20, ⟨0, 0, 0, 0⟩⟩⟩ :=
  walkDir_depth_skip _ _ _ _ _ (by decide) (by decide)

/-- C5: when listing the directory fails, the error counter is incremented
by exactly one (all other state is untouched) and that error is returned
with aggregate 0; the failure is local: a parent directory that lists
successfully always returns error `none` whatever its entries do, and the
entry loop always continues past any entry into the remaining siblings. -/
theorem walkDir_listing_failure (perm : Bool) (path : String) (depth : Nat)
    (cfg : walkCfg) (st : WalkState)
    (hd : ¬(cfg.maxDepth > 0 ∧ (depth : Int) > cfg.maxDepth)) :
    walkDir false path (.dirErr perm) depth cfg st =
      ⟨0, some (if perm then .permission else .ioErr), st.addErrors⟩ ∧
    (∀ (es : List (String × FsTree)) (st2 : WalkState),
      (walkDir false path (.dirOk es) depth cfg st2).err = none) ∧
    (∀ (es₁ es₂ : List (String × FsTree)) (st3 : WalkState),
      walkEntries false path (es₁ ++ es₂) depth cfg st3 =
        ((walkEntries false path es₁ depth cfg st3).1 +
          (walkEntries false path es₂ depth cfg
            (walkEntries false path es₁ depth cfg st3).2).1,
         (walkEntries false path es₂ depth cfg
           (walkEntries false path es₁ depth cfg st3).2).2)) := by
  refine ⟨walkDir_dirErr perm path depth cfg st hd, ?_, ?_⟩
  · intro es st2
    by_cases h : cfg.maxDepth > 0 ∧ (depth : Int) > cfg.maxDepth
    · rw [walkDir.eq_def]
      simp [h]
    · rw [walkDir_dirOk false path es depth cfg st2 rfl h]
  · intro es₁ es₂ st3
    exact walkEntries_append false path es₁ es₂ depth cfg st3

/-- Witness for C5 at a concrete input. -/
theorem walkDir_listing_failure_witness :
    walkDir false "r" (.dirErr true) 0 ⟨20, 4, false, 0, false, []⟩
        ⟨mkHeap 20, mkHeap 20, ⟨0, 0, 0, 0⟩⟩ =
      ⟨0, some .permission,
       WalkState.addErrors ⟨mkHeap 20, mkHeap 20, ⟨0, 0, 0, 0⟩⟩⟩ := by
  have h := walkDir_listing_failure true "r" 0 ⟨20, 4, false, 0, false, []⟩
    ⟨mkHeap 20, mkHeap 20, ⟨0, 0, 0, 0⟩⟩ (by decide)
  simpa using h.1

/-- C6: permission-classified failures are asymmetric. When a recursive
child returns a permission error, processing that child leaves the error
counter one higher (the increment made inside the child for its own
listing), with no second increment at the aggregation site; a child failing
with a non-permission error leaves it two higher; and a permission failure
of the current listing itself increments the counter. -/
theorem permission_asymmetry (path name : String) (depth : Nat)
    (cfg : walkCfg) (st : WalkState)
    (hglob : shouldSkipByGlob (pathJoin path name) cfg.skipPatterns = false)
    (hhid : (cfg.skipHidden && name.startsWith ".") = false)
    (hd1 : ¬(cfg.maxDepth > 0 ∧ ((depth + 1 : Nat) : Int) > cfg.maxDepth))
    (hd0 : ¬(cfg.maxDepth > 0 ∧ (depth : Int) > cfg.maxDepth)) :
    (entryStep false path name (.dirErr true) depth cfg st).2.s.errors =
      st.s.errors + 1 ∧
    (entryStep false path name (.dirErr false) depth cfg st).2.s.errors =
      st.s.errors + 2 ∧
    (walkDir false path (.dirErr true) depth cfg st).st.s.errors =
      st.s.errors + 1 := by
  refine ⟨?_, ?_, ?_⟩
  · rw [entryStep.eq_def]
    simp [hglob, hhid, FsTree.infoOk, FsTree.isSymlink, FsTree.isDir,
      walkDir_dirErr true (pathJoin path name) (depth + 1) cfg st hd1,
      isIgnorable, WalkState.addErrors]
  · rw [entryStep.eq_def]
    simp [hglob, hhid, FsTree.infoOk, FsTree.isSymlink, FsTree.isDir,
      walkDir_dirErr false (pathJoin path name) (depth + 1) cfg st hd1,
      isIgnorable, WalkState.addErrors]
    ring
  · rw [walkDir_dirErr true path depth cfg st hd0]
    simp [WalkState.addErrors]

/-- Witness for C6 at a concrete input. -/
theorem permission_asymmetry_witness :
    (entryStep false "r" "p" (.dirErr true) 0 ⟨20, 4, false, 0, false, []⟩
        ⟨mkHeap 20, mkHeap 20, ⟨0, 0, 0, 0⟩⟩).2.s.errors = 0 + 1 ∧
    (entryStep false "r" "p" (.dirErr false) 0 ⟨20, 4, false, 0, false, []⟩
        ⟨mkHeap 20, mkHeap 20, ⟨0, 0, 0, 0⟩⟩).2.s.errors = 0 + 2 ∧
    (walkDir false "r" (.dirErr true) 0 ⟨20, 4, false, 0, false, []⟩
        ⟨mkHeap 20, mkHeap 20, ⟨0, 0, 0, 0⟩⟩).st.s.errors = 0 + 1 :=
  permission_asymmetry "r" "p" 0 ⟨20, 4, false, 0, false, []⟩
    ⟨mkHeap 20, mkHeap 20, ⟨0, 0, 0, 0⟩⟩ (by decide) (by decide) (by decide)
    (by decide)

/-- C9: a subdirectory entry whose recursive call returns without error is
pushed into the directory selector as `(childPath, childAggregate)`; in
particular a child cut off by the depth limit returns aggregate 0 without
error, so it is counted as skipped and still pushed with size 0. -/
theorem dir_child_pushed (path name : String) (t : FsTree) (depth : Nat)
    (cfg : walkCfg) (st : WalkState)
    (hglob : shouldSkipByGlob (pathJoin path name) cfg.skipPatterns = false)
    (hhid : (cfg.skipHidden && name.startsWith ".") = false)
    (hdir : t.isDir = true) :
    ((walkDir false (pathJoin path name) t (depth + 1) cfg st).err = none →
      entryStep false path name t depth cfg st =
        ((walkDir false (pathJoin path name) t (depth + 1) cfg st).total,
         (walkDir false (pathJoin path name) t (depth + 1) cfg st).st.pushDir
           ⟨pathJoin path name,
            (walkDir false (pathJoin path name) t (depth + 1) cfg st).total⟩)) ∧
    (cfg.maxDepth > 0 → ((depth + 1 : Nat) : Int) > cfg.maxDepth →
      entryStep false path name t depth cfg st =
        (0, (st.addSkipped).pushDir ⟨pathJoin path name, 0⟩)) := by
  obtain ⟨hinfo, hsym, hreg⟩ := isDir_fields t hdir
  constructor
  · intro herr
    rw [entryStep.eq_def]
    simp [hglob, hhid, hinfo, hsym, hdir, herr]
  · intro hD hgt
    rw [entryStep.eq_def]
    have hskip := walkDir_depth_skip (pathJoin path name) t (depth + 1) cfg st hD hgt
    simp [hglob, hhid, hinfo, hsym, hdir, hskip, WalkState.addSkipped]

/-- Witness for C9 at a concrete input: a directory at depth
`maxDepth + 1` is skipped yet pushed with size 0. -/
theorem dir_child_pushed_witness :
    entryStep false "r" "a" (.dirOk [("f", .file 7)]) 1
        ⟨20, 4, false, 1, false, []⟩ ⟨mkHeap 20, mkHeap 20, ⟨0, 0, 0, 0⟩⟩ =
      (0, (WalkState.addSkipped
            ⟨mkHeap 20, mkHeap 20, ⟨0, 0, 0, 0⟩⟩).pushDir ⟨"r/a", 0⟩) :=
  (dir_child_pushed "r" "a" (.dirOk [("f", .file 7)]) 1
    ⟨20, 4, false, 1, false, []⟩ ⟨mkHeap 20, mkHeap 20, ⟨0, 0, 0, 0⟩⟩
    (by decide) (by decide) (by decide)).2 (by decide) (by decide)

/-- C10: a symbolic-link entry contributes nothing and is never recursed
into even when link-following is enabled, because the directory and
regular-file classifications use the non-following metadata of the entry
itself; the `followLinks` flag only decides whether the skipped counter is
incremented. -/
theorem symlink_entry (path name : String) (depth : Nat) (cfg : walkCfg)
    (st : WalkState)
    (hglob : shouldSkipByGlob (pathJoin path name) cfg.skipPatterns = false)
    (hhid : (cfg.skipHidden && name.startsWith ".") = false) :
    entryStep false path name .symlink depth cfg st =
      (0, if cfg.followLinks then st else st.addSkipped) := by
  rw [entryStep.eq_def]
  cases hf : cfg.followLinks <;>
    simp [hglob, hhid, hf, FsTree.infoOk, FsTree.isSymlink, FsTree.isDir,
      FsTree.isRegular]

/-- Witness for C10 at a concrete input (with link-following enabled). -/
theorem symlink_entry_witness :
    entryStep false "r" "s" .symlink 0 ⟨20, 4, true, 0, false, []⟩
        ⟨mkHeap 20, mkHeap 20, ⟨0, 0, 0, 0⟩⟩ =
      (0, ⟨mkHeap 20, mkHeap 20, ⟨0, 0, 0, 0⟩⟩) := by
  have h := symlink_entry "r" "s" 0 ⟨20, 4, true, 0, false, []⟩
    ⟨mkHeap 20, mkHeap 20, ⟨0, 0, 0, 0⟩⟩ (by decide) (by decide)
  simpa using h

/-- C8: the number of concurrently held admission slots never exceeds the
configured worker count in any reachable state, and an admission attempt in
a saturated state falls back to the synchronous path instead of blocking or
queuing. -/
theorem sem_bound (cap h : Nat) (hr : SemReach cap h) :
    h ≤ cap ∧ (¬ h < cap → trySpawn cap h = (h, false)) := by
  constructor
  · induction hr with
    | init => exact Nat.zero_le _
    | step hr hs ih =>
      cases hs with
      | spawn hlt => omega
      | syncRun hge => exact ih
      | release => omega
  · intro hfull
    simp [trySpawn, hfull]

/-- Witness for C8 at a concrete input. -/
theorem sem_bound_witness :
    1 ≤ 1 ∧ (¬ 1 < 1 → trySpawn 1 1 = (1, false)) :=
  sem_bound 1 1 (SemReach.step SemReach.init (SemStep.spawn (by decide)))

/-! ## The aggregate and the returned error do not depend on the shared
state: the walker only writes to the selectors and counters, it never
reads them. -/

theorem walk_indep_all (n : Nat) :
    (∀ t : FsTree, sizeOf t ≤ n → ∀ (c : Bool) (p : String) (d : Nat)
        (cfg : walkCfg) (st st2 : WalkState),
      (walkDir c p t d cfg st).total = (walkDir c p t d cfg st2).total ∧
      (walkDir c p t d cfg st).err = (walkDir c p t d cfg st2).err) ∧
    (∀ es : List (String × FsTree), sizeOf es ≤ n → ∀ (c : Bool)
        (p : String) (d : Nat) (cfg : walkCfg) (st st2 : WalkState),
      (walkEntries c p es d cfg st).1 = (walkEntries c p es d cfg st2).1) := by
  induction n using Nat.strong_induction_on with
  | _ n ih =>
  have hT : ∀ t : FsTree, sizeOf t ≤ n → ∀ (c : Bool) (p : String) (d : Nat)
      (cfg : walkCfg) (st st2 : WalkState),
      (walkDir c p t d cfg st).total = (walkDir c p t d cfg st2).total ∧
      (walkDir c p t d cfg st).err = (walkDir c p t d cfg st2).err := by
    intro t ht c p d cfg st st2
    simp only [walkDir.eq_def]
    cases c with
    | true => simp
    | false =>
      by_cases hdep : cfg.maxDepth > 0 ∧ (d : Int) > cfg.maxDepth
      · simp [hdep]
      · simp only [hdep, if_false, Bool.false_eq_true]
        cases t with
        | dirOk entries =>
          have hsz : sizeOf entries < n := by
            have hspec : sizeOf (FsTree.dirOk entries) = 1 + sizeOf entries := by
              simp [FsTree.dirOk.sizeOf_spec]
            omega
          have he := (ih (sizeOf entries) hsz).2 entries le_rfl false p d cfg
            st.addDirs st2.addDirs
          simp [he]
        | file s => simp
        | special => simp
        | symlink => simp
        | statErr => simp
        | dirErr perm => simp
  have hstep : ∀ (name : String) (t : FsTree), sizeOf t ≤ n →
      ∀ (c : Bool) (p : String) (d : Nat) (cfg : walkCfg) (st st2 : WalkState),
      (entryStep c p name t d cfg st).1 = (entryStep c p name t d cfg st2).1 := by
    intro name t ht c p d cfg st st2
    simp only [entryStep.eq_def]
    by_cases h1 : shouldSkipByGlob (pathJoin p name) cfg.skipPatterns = true
    · simp [h1]
    · simp only [h1, if_false]
      by_cases h2 : (!t.infoOk) = true
      · simp [h2]
      · simp only [h2, if_false]
        by_cases h3 : (t.isSymlink && !cfg.followLinks) = true
        · simp [h3]
        · simp only [h3, if_false]
          by_cases h4 : (cfg.skipHidden && name.startsWith ".") = true
          · simp [h4]
          · simp only [h4, if_false]
            by_cases h5 : t.isDir = true
            · simp only [h5, if_true]
              obtain ⟨htot, herr⟩ := hT t ht c (pathJoin p name) (d + 1) cfg st st2
              cases hcase : (walkDir c (pathJoin p name) t (d + 1) cfg st2).err with
              | none =>
                rw [hcase] at herr
                simp [herr, hcase, htot]
              | some e =>
                rw [hcase] at herr
                simp only [herr, hcase]
                cases hig : isIgnorable e <;> simp [hig]
            · simp only [h5, if_false]
              by_cases h6 : t.isRegular = true <;> simp [h6]
  refine ⟨hT, ?_⟩
  intro es he c p d cfg st st2
  cases es with
  | nil => simp [walkEntries_nil]
  | cons e rest =>
    obtain ⟨name, t⟩ := e
    rw [walkEntries_cons, walkEntries_cons]
    have hsz : sizeOf ((name, t) : String × FsTree) ≥ 1 + sizeOf t := by
      simp [Prod.mk.sizeOf_spec]
    have hes : sizeOf ((name, t) :: rest) = 1 + sizeOf ((name, t) : String × FsTree) + sizeOf rest := by
      simp [List.cons.sizeOf_spec]
    have h1 := hstep name t (by omega) c p d cfg st st2
    have h2 := (ih (sizeOf rest) (by omega)).2 rest le_rfl c p d cfg
      (entryStep c p name t d cfg st).2 (entryStep c p name t d cfg st2).2
    rw [h1, h2]

theorem walkDir_state_indep (c : Bool) (p : String) (t : FsTree) (d : Nat)
    (cfg : walkCfg) (st st2 : WalkState) :
    (walkDir c p t d cfg st).total = (walkDir c p t d cfg st2).total ∧
    (walkDir c p t d cfg st).err = (walkDir c p t d cfg st2).err :=
  (walk_indep_all (sizeOf t)).1 t le_rfl c p d cfg st st2

/-- The total contributed by one entry equals the spec-side per-entry
contribution. -/
theorem entryStep_total_eq_contrib (p name : String) (t : FsTree) (d : Nat)
    (cfg : walkCfg) (st : WalkState) :
    (entryStep false p name t d cfg st).1 = entryContrib p d cfg (name, t) := by
  rw [entryStep.eq_def]
  simp only [entryContrib]
  by_cases h1 : shouldSkipByGlob (pathJoin p name) cfg.skipPatterns = true
  · simp [h1]
  · simp only [h1, if_false]
    by_cases h2 : (!t.infoOk) = true
    · simp [h2]
    · simp only [h2, if_false]
      by_cases h3 : (t.isSymlink && !cfg.followLinks) = true
      · simp [h3]
      · simp only [h3, if_false]
        by_cases h4 : (cfg.skipHidden && name.startsWith ".") = true
        · simp [h4]
        · simp only [h4, if_false]
          by_cases h5 : t.isDir = true
          · simp only [h5, if_true]
            obtain ⟨htot, herr⟩ := walkDir_state_indep false (pathJoin p name)
              t (d + 1) cfg st baseState
            cases hcase : (walkDir false (pathJoin p name) t (d + 1) cfg baseState).err with
            | none =>
              rw [hcase] at herr
              simp [herr, hcase, htot]
            | some e =>
              rw [hcase] at herr
              simp only [herr, hcase]
              cases hig : isIgnorable e <;> simp [hig]
          · simp only [h5, if_false]
            by_cases h6 : t.isRegular = true <;> simp [h6]

theorem walkEntries_total_sum (p : String) (es : List (String × FsTree))
    (d : Nat) (cfg : walkCfg) (st : WalkState) :
    (walkEntries false p es d cfg st).1 =
      (es.map (entryContrib p d cfg)).sum := by
  induction es generalizing st with
  | nil => simp [walkEntries_nil]
  | cons e rest ih =>
    obtain ⟨name, t⟩ := e
    rw [walkEntries_cons]
    simp only [List.map_cons, List.sum_cons]
    rw [ih, entryStep_total_eq_contrib]

/-- C3: on a directory whose listing succeeds, walkDir returns no error,
and its aggregate is the sum over the immediate entries of: the size of a
regular-file child not skipped by configuration, the recursive aggregate of
a subdirectory child whose recursion returned without error, and 0 for
everything else (including entries that are neither regular files, nor
directories, nor symlinks). -/
theorem walkDir_aggregate_sum (path : String) (es : List (String × FsTree))
    (depth : Nat) (cfg : walkCfg) (st : WalkState)
    (hd : ¬(cfg.maxDepth > 0 ∧ (depth : Int) > cfg.maxDepth)) :
    (walkDir false path (.dirOk es) depth cfg st).err = none ∧
    (walkDir false path (.dirOk es) depth cfg st).total =
      (es.map (entryContrib path depth cfg)).sum := by
  rw [walkDir_dirOk false path es depth cfg st rfl hd]
  exact ⟨rfl, walkEntries_total_sum path es depth cfg st.addDirs⟩

/-- Witness for C3 at a concrete input: two regular files, a device node,
a failing subdirectory and a successful subdirectory. -/
theorem walkDir_aggregate_sum_witness :
    (walkDir false "r"
        (.dirOk [("f1", .file 10), ("dev", .special), ("bad", .dirErr false),
                 ("sub", .dirOk [("f2", .file 32)])])
        0 ⟨20, 4, false, 0, false, []⟩
        ⟨mkHeap 20, mkHeap 20, ⟨0, 0, 0, 0⟩⟩).err = none ∧
    (walkDir false "r"
        (.dirOk [("f1", .file 10), ("dev", .special), ("bad", .dirErr false),
                 ("sub", .dirOk [("f2", .file 32)])])
        0 ⟨20, 4, false, 0, false, []⟩
        ⟨mkHeap 20, mkHeap 20, ⟨0, 0, 0, 0⟩⟩).total =
      ([("f1", FsTree.file 10), ("dev", FsTree.special),
        ("bad", FsTree.dirErr false),
        ("sub", FsTree.dirOk [("f2", FsTree.file 32)])].map
          (entryContrib "r" 0 ⟨20, 4, false, 0, false, []⟩)).sum :=
  walkDir_aggregate_sum "r"
    [("f1", .file 10), ("dev", .special), ("bad", .dirErr false),
     ("sub", .dirOk [("f2", .file 32)])]
    0 ⟨20, 4, false, 0, false, []⟩ ⟨mkHeap 20, mkHeap 20, ⟨0, 0, 0, 0⟩⟩
    (by decide)

/-! ## The snapshot operation -/

theorem sizeGE_trans (a b c : item) (hab : sizeGE a b = true)
    (hbc : sizeGE b c = true) : sizeGE a c = true := by
  simp only [sizeGE, decide_eq_true_eq] at *
  omega

theorem sizeGE_total (a b : item) : (sizeGE a b || sizeGE b a) = true := by
  simp only [sizeGE, Bool.or_eq_true, decide_eq_true_eq]
  omega

/-- C2: the snapshot is ordered by descending size, it is a permutation of
the held contents, and reading twice without an intervening push (that is,
from an unchanged backing slice) yields equal multisets. -/
theorem snapshot_sorted_idempotent (h : minHeap) :
    List.Pairwise (fun a b : item => b.Size ≤ a.Size) h.sortedDesc ∧
    h.sortedDesc.Perm h.data ∧
    (∀ h2 : minHeap, h2.data = h.data →
      (h2.sortedDesc : Multiset item) = (h.sortedDesc : Multiset item)) := by
  refine ⟨?_, ?_, ?_⟩
  · have hs := @List.sorted_mergeSort item sizeGE sizeGE_trans sizeGE_total
      h.data
    have : ∀ a b : item, (sizeGE a b = true) = (b.Size ≤ a.Size) := by
      intro a b
      simp [sizeGE]
    simpa [minHeap.sortedDesc, this] using hs
  · exact List.mergeSort_perm h.data sizeGE
  · intro h2 he
    simp [minHeap.sortedDesc, he]

/-- Witness for C2 at a concrete input. -/
theorem snapshot_sorted_idempotent_witness :
    List.Pairwise (fun a b : item => b.Size ≤ a.Size)
      (minHeap.sortedDesc ⟨[⟨"a", 1⟩, ⟨"b", 5⟩], 2⟩) ∧
    ((minHeap.sortedDesc ⟨[⟨"a", 1⟩, ⟨"b", 5⟩], 2⟩ : List item) : Multiset item) =
      ((minHeap.sortedDesc ⟨[⟨"a", 1⟩, ⟨"b", 5⟩], 2⟩ : List item) : Multiset item) := by
  have h := snapshot_sorted_idempotent ⟨[⟨"a", 1⟩, ⟨"b", 5⟩], 2⟩
  exact ⟨h.1, h.2.2 ⟨[⟨"a", 1⟩, ⟨"b", 5⟩], 2⟩ rfl⟩

/-! ## Heap indexing and swap basics -/

theorem idx_set_self (d : List item) (i : Nat) (a : item) (h : i < d.length) :
    idx (d.set i a) i = a := by
  have h2 : i < (d.set i a).length := by simpa using h
  rw [idx, List.getD_eq_getElem _ _ h2]
  simp [List.getElem_set]

theorem idx_set_ne (d : List item) (i j : Nat) (a : item) (h : i ≠ j) :
    idx (d.set i a) j = idx d j := by
  simp only [idx, List.getD_eq_getElem?_getD, List.getElem?_set, h, if_false]

theorem length_lswap (d : List item) (i j : Nat) :
    (lswap d i j).length = d.length := by
  simp [lswap]

theorem idx_lswap_fst (d : List item) (i j : Nat) (hij : i ≠ j)
    (hi : i < d.length) : idx (lswap d i j) i = idx d j := by
  rw [lswap, idx_set_ne _ _ _ _ (Ne.symm hij)]
  exact idx_set_self d i _ hi

theorem idx_lswap_snd (d : List item) (i j : Nat) (hij : i ≠ j)
    (hj : j < d.length) : idx (lswap d i j) j = idx d i := by
  rw [lswap]
  have h2 : j < (d.set i (idx d j)).length := by simpa using hj
  exact idx_set_self _ _ _ h2

theorem idx_lswap_other (d : List item) (i j k : Nat) (hki : k ≠ i)
    (hkj : k ≠ j) : idx (lswap d i j) k = idx d k := by
  rw [lswap, idx_set_ne _ _ _ _ (Ne.symm hkj), idx_set_ne _ _ _ _ (Ne.symm hki)]

theorem idx_append_lt (d e : List item) (i : Nat) (h : i < d.length) :
    idx (d ++ e) i = idx d i := by
  simp only [idx]
  exact List.getD_append d e default i h

theorem idx_append_len (d : List item) (a : item) :
    idx (d ++ [a]) d.length = a := by
  simp only [idx]
  rw [List.getD_append_right _ _ _ _ le_rfl]
  simp

theorem cons_set_perm (t : List item) (k : Nat) (x : item)
    (hk : k < t.length) : (idx t k :: t.set k x).Perm (x :: t) := by
  induction t generalizing k with
  | nil => simp at hk
  | cons y s ih =>
    cases k with
    | zero =>
      simp only [idx, List.getD_cons_zero, List.set_cons_zero]
      exact List.Perm.swap x y s
    | succ m =>
      have hm : m < s.length := by simpa using hk
      have h1 : idx (y :: s) (m + 1) = idx s m := by
        simp [idx, List.getD_cons_succ]
      rw [h1, List.set_cons_succ]
      exact ((List.Perm.swap y (idx s m) (s.set m x)).trans
        ((ih m hm).cons y)).trans (List.Perm.swap x y s)

theorem lswap_comm (d : List item) (i j : Nat) (hij : i ≠ j) :
    lswap d i j = lswap d j i := by
  rw [lswap, lswap, List.set_comm _ _ _ hij]

theorem lswap_zero_succ (y : item) (s : List item) (m : Nat) :
    lswap (y :: s) 0 (m + 1) = idx s m :: s.set m y := by
  simp [lswap, idx, List.getD_cons_succ, List.getD_cons_zero,
    List.set_cons_zero, List.set_cons_succ]

theorem lswap_perm (d : List item) (i j : Nat) (hij : i ≠ j)
    (hi : i < d.length) (hj : j < d.length) : (lswap d i j).Perm d := by
  induction d generalizing i j with
  | nil => simp at hi
  | cons y s ih =>
    rcases i with _ | i2 <;> rcases j with _ | j2
    · exact absurd rfl hij
    · have hj2 : j2 < s.length := by simpa using hj
      rw [lswap_zero_succ]
      exact cons_set_perm s j2 y hj2
    · have hi2 : i2 < s.length := by simpa using hi
      rw [lswap_comm _ _ _ hij, lswap_zero_succ]
      exact cons_set_perm s i2 y hi2
    · have heq : lswap (y :: s) (i2 + 1) (j2 + 1) = y :: lswap s i2 j2 := by
        simp [lswap, idx, List.getD_cons_succ, List.set_cons_succ]
      rw [heq]
      exact (ih i2 j2 (by omega) (by simpa using hi) (by simpa using hj)).cons y

theorem up_perm : ∀ (i : Nat) (d : List item), i < d.length →
    (minHeap.up d i).Perm d := by
  intro i
  induction i using Nat.strong_induction_on with
  | _ i ih =>
    intro d hi
    rw [minHeap.up]
    dsimp only
    split_ifs with hpos hle
    · exact List.Perm.refl d
    · have hp : (i - 1) / 2 < i := by omega
      refine (ih _ hp _ ?_).trans (lswap_perm d _ i (by omega) (by omega) hi)
      rw [length_lswap]
      omega
    · exact List.Perm.refl d

theorem down_perm_aux : ∀ (n : Nat) (d : List item) (i : Nat),
    d.length - i ≤ n → (minHeap.down d i).Perm d := by
  intro n
  induction n with
  | zero =>
    intro d i hle
    rw [minHeap.down]
    split_ifs with hs
    · exact List.Perm.refl d
    · have hlt := downSmall_lt d i hs
      omega
  | succ n ihn =>
    intro d i hle
    rw [minHeap.down]
    split_ifs with hs
    · exact List.Perm.refl d
    · have hlt := downSmall_lt d i hs
      refine (ihn _ _ ?_).trans (lswap_perm d i _ (by omega) (by omega) (by omega))
      rw [length_lswap]
      omega

theorem down_perm (d : List item) (i : Nat) : (minHeap.down d i).Perm d :=
  down_perm_aux (d.length - i) d i le_rfl

/-! ## Preservation of the heap law by the sift operations -/

theorem root_min (d : List item) (hh : IsHeap d) :
    ∀ j, j < d.length → (idx d 0).Size ≤ (idx d j).Size := by
  intro j
  induction j using Nat.strong_induction_on with
  | _ j ihj =>
    intro hj
    rcases Nat.eq_zero_or_pos j with h0 | hpos
    · subst h0
      exact le_refl _
    · exact le_trans (ihj ((j - 1) / 2) (by omega) (by omega)) (hh j hpos hj)

theorem root_min_mem (d : List item) (hh : IsHeap d) (y : item) (hy : y ∈ d) :
    (idx d 0).Size ≤ y.Size := by
  obtain ⟨n, hn, rfl⟩ := List.mem_iff_getElem.mp hy
  rw [← List.getD_eq_getElem d default hn]
  exact root_min d hh n hn

theorem heap_up_aux : ∀ (i : Nat) (d : List item), i < d.length →
    AlmostHeapUp d i → IsHeap (minHeap.up d i) := by
  intro i
  induction i using Nat.strong_induction_on with
  | _ i ih =>
    intro d hi halmost
    rw [minHeap.up]
    dsimp only
    split_ifs with hpos hle
    · intro j hj0 hjlen
      rcases eq_or_ne j i with rfl | hne
      · exact hle
      · exact halmost.1 j hj0 hjlen hne
    · have hgt : (idx d i).Size < (idx d ((i - 1) / 2)).Size := by omega
      have hpi : (i - 1) / 2 < i := by omega
      have hplen : (i - 1) / 2 < d.length := by omega
      have hvp : idx (lswap d ((i - 1) / 2) i) ((i - 1) / 2) = idx d i :=
        idx_lswap_fst d _ i (by omega) hplen
      have hvi : idx (lswap d ((i - 1) / 2) i) i = idx d ((i - 1) / 2) :=
        idx_lswap_snd d _ i (by omega) hi
      have hvo : ∀ k, k ≠ (i - 1) / 2 → k ≠ i →
          idx (lswap d ((i - 1) / 2) i) k = idx d k :=
        fun k h1 h2 => idx_lswap_other d _ i k h1 h2
      apply ih ((i - 1) / 2) hpi
      · rw [length_lswap]
        omega
      · constructor
        · intro j hj0 hjlen hjp
          rw [length_lswap] at hjlen
          by_cases hji : j = i
          · subst hji
            rw [show (j - 1) / 2 = (j - 1) / 2 from rfl, hvp, hvi]
            exact le_of_lt hgt
          · rw [hvo j hjp hji]
            by_cases hq : (j - 1) / 2 = (i - 1) / 2
            · rw [hq, hvp]
              have hedge := halmost.1 j hj0 hjlen hji
              rw [hq] at hedge
              exact le_trans (le_of_lt hgt) hedge
            · by_cases hq2 : (j - 1) / 2 = i
              · rw [hq2, hvi]
                have hj12 : j = 2 * i + 1 ∨ j = 2 * i + 2 := by omega
                exact halmost.2 j hjlen hj12 hpos
              · rw [hvo _ hq hq2]
                exact halmost.1 j hj0 hjlen hji
        · intro c hclen hc12 hppos
          rw [length_lswap] at hclen
          rw [hvo (((i - 1) / 2 - 1) / 2) (by omega) (by omega)]
          have hedge_p := halmost.1 ((i - 1) / 2) hppos hplen (by omega)
          by_cases hci : c = i
          · subst hci
            rw [hvi]
            exact hedge_p
          · rw [hvo c (by omega) hci]
            have hedge_c := halmost.1 c (by omega) hclen hci
            rw [show (c - 1) / 2 = (i - 1) / 2 from by omega] at hedge_c
            exact le_trans hedge_p hedge_c
    · intro j hj0 hjlen
      exact halmost.1 j hj0 hjlen (by omega)

theorem downSmall_eq_spec (d : List item) (i : Nat) (h : downSmall d i = i) :
    ∀ c, c < d.length → (c = 2 * i + 1 ∨ c = 2 * i + 2) →
      (idx d i).Size ≤ (idx d c).Size := by
  intro c hclen hc12
  simp only [downSmall] at h
  simp only [show 2 * i + 1 + 1 = 2 * i + 2 from by omega] at h
  split_ifs at h with h1 h2 h2 <;> rcases hc12 with rfl | rfl <;> omega

theorem downSmall_ne_spec (d : List item) (i : Nat) (h : downSmall d i ≠ i) :
    (idx d (downSmall d i)).Size < (idx d i).Size ∧
    (∀ c, c < d.length → (c = 2 * i + 1 ∨ c = 2 * i + 2) →
      (idx d (downSmall d i)).Size ≤ (idx d c).Size) ∧
    (downSmall d i = 2 * i + 1 ∨ downSmall d i = 2 * i + 2) := by
  simp only [downSmall] at *
  simp only [show 2 * i + 1 + 1 = 2 * i + 2 from by omega] at *
  split_ifs at * with h1 h2
  · refine ⟨by omega, ?_, by omega⟩
    intro c hclen hc12
    rcases hc12 with rfl | rfl <;> omega
  · refine ⟨by omega, ?_, by omega⟩
    intro c hclen hc12
    rcases hc12 with rfl | rfl <;> omega
  · refine ⟨by omega, ?_, by omega⟩
    intro c hclen hc12
    rcases hc12 with rfl | rfl <;> omega
  · omega

theorem isHeap_of_down_stop (d : List item) (i : Nat)
    (hs : downSmall d i = i) (halmost : AlmostHeapDown d i) : IsHeap d := by
  intro j hj0 hjlen
  by_cases hq : (j - 1) / 2 = i
  · have hj12 : j = 2 * i + 1 ∨ j = 2 * i + 2 := by omega
    rw [hq]
    exact downSmall_eq_spec d i hs j hjlen hj12
  · exact halmost.1 j hj0 hjlen hq

theorem heap_down_aux : ∀ (n : Nat) (d : List item) (i : Nat),
    d.length - i ≤ n → AlmostHeapDown d i → IsHeap (minHeap.down d i) := by
  intro n
  induction n with
  | zero =>
    intro d i hle halmost
    rw [minHeap.down]
    split_ifs with hs
    · exact isHeap_of_down_stop d i hs halmost
    · have := downSmall_lt d i hs
      omega
  | succ n ihn =>
    intro d i hle halmost
    rw [minHeap.down]
    split_ifs with hs
    · exact isHeap_of_down_stop d i hs halmost
    · obtain ⟨hilt, hslen⟩ := downSmall_lt d i hs
      obtain ⟨hlt, hmin, h12⟩ := downSmall_ne_spec d i hs
      have hvi : idx (lswap d i (downSmall d i)) i = idx d (downSmall d i) :=
        idx_lswap_fst d i _ (by omega) (by omega)
      have hvs : idx (lswap d i (downSmall d i)) (downSmall d i) = idx d i :=
        idx_lswap_snd d i _ (by omega) hslen
      have hvo : ∀ k, k ≠ i → k ≠ downSmall d i →
          idx (lswap d i (downSmall d i)) k = idx d k :=
        fun k hk1 hk2 => idx_lswap_other d i _ k hk1 hk2
      apply ihn
      · rw [length_lswap]
        omega
      · constructor
        · intro j hj0 hjlen hjq
          rw [length_lswap] at hjlen
          by_cases hjs : j = downSmall d i
          · rw [hjs, show (downSmall d i - 1) / 2 = i from by omega, hvi, hvs]
            exact le_of_lt hlt
          · by_cases hji : j = i
            · have hj0i : 0 < i := hji ▸ hj0
              rw [hji, hvo ((i - 1) / 2) (by omega) (by omega), hvi]
              exact halmost.2 (downSmall d i) hslen h12 hj0i
            · rw [hvo j hji hjs]
              by_cases hq : (j - 1) / 2 = i
              · rw [hq, hvi]
                have hj12 : j = 2 * i + 1 ∨ j = 2 * i + 2 := by omega
                exact hmin j hjlen hj12
              · rw [hvo _ hq hjq]
                exact halmost.1 j hj0 hjlen hq
        · intro c hclen hc12 hspos
          rw [length_lswap] at hclen
          rw [show (downSmall d i - 1) / 2 = i from by omega, hvi]
          rw [hvo c (by omega) (by omega)]
          have hedge := halmost.1 c (by omega) hclen (by omega)
          rw [show (c - 1) / 2 = downSmall d i from by omega] at hedge
          exact hedge

theorem isHeap_push (h : minHeap) (it : item) (hh : IsHeap h.data) :
    IsHeap (h.push it).data := by
  rw [minHeap.push]
  split_ifs with hk hlen hgt
  · exact hh
  · show IsHeap (minHeap.up (h.data ++ [it]) h.data.length)
    apply heap_up_aux
    · simp
    · constructor
      · intro j hj0 hjlen hjne
        simp only [List.length_append, List.length_cons, List.length_nil]
          at hjlen
        have hjlt : j < h.data.length := by omega
        rw [idx_append_lt _ _ _ (by omega), idx_append_lt _ _ _ hjlt]
        exact hh j hj0 hjlt
      · intro c hclen hc12 hipos
        simp only [List.length_append, List.length_cons, List.length_nil]
          at hclen
        omega
  · show IsHeap (minHeap.down (h.data.set 0 it) 0)
    apply heap_down_aux ((h.data.set 0 it).length - 0) _ 0 le_rfl
    constructor
    · intro j hj0 hjlen hq
      rw [List.length_set] at hjlen
      rw [idx_set_ne _ _ _ _ (by omega), idx_set_ne _ _ _ _ (by omega)]
      exact hh j hj0 hjlen
    · intro c hclen hc12 hpos0
      omega
  · exact hh

/-! ## The selection invariant is preserved by push -/

theorem push_k (h : minHeap) (it : item) : (h.push it).k = h.k := by
  rw [minHeap.push]
  split_ifs <;> rfl

theorem selects_push (h : minHeap) (it : item) (pushed : List item)
    (hh : IsHeap h.data) (hsel : Selects h.k h.data pushed) :
    Selects h.k (h.push it).data (pushed ++ [it]) := by
  obtain ⟨hsub, hlen, hthr⟩ := hsel
  have hsubc := Multiset.card_le_card hsub
  simp only [Multiset.coe_card] at hsubc
  rw [minHeap.push]
  split_ifs with hk hlt hgt
  · -- k <= 0: nothing is ever held
    have hdata : h.data = [] := by
      apply List.length_eq_zero.mp
      have hmin : min (max h.k 0) ((pushed.length : Nat) : Int) = 0 := by omega
      omega
    refine ⟨?_, ?_, ?_⟩
    · rw [hdata]
      exact zero_le _
    · rw [hdata]
      simp only [List.length_nil, List.length_append, List.length_cons,
        List.length_nil, Nat.cast_zero]
      push_cast
      omega
    · intro x hx y hy
      rw [hdata] at hy
      simp at hy
  · -- below capacity: append and sift up
    show Selects h.k (minHeap.up (h.data ++ [it]) h.data.length) (pushed ++ [it])
    have hperm : (minHeap.up (h.data ++ [it]) h.data.length).Perm
        (h.data ++ [it]) := up_perm _ _ (by simp)
    have hcoe : ((minHeap.up (h.data ++ [it]) h.data.length : List item) :
        Multiset item) = ↑(h.data ++ [it]) := Multiset.coe_eq_coe.mpr hperm
    have hfull : (h.data : Multiset item) = ↑pushed := by
      apply Multiset.eq_of_le_of_card_le hsub
      simp only [Multiset.coe_card]
      omega
    refine ⟨?_, ?_, ?_⟩
    · rw [hcoe, ← Multiset.coe_add, ← Multiset.coe_add]
      exact add_le_add_right hsub _
    · rw [hperm.length_eq]
      simp only [List.length_append, List.length_cons, List.length_nil]
      push_cast
      omega
    · intro x hx y hy
      exfalso
      rw [hcoe, ← Multiset.coe_add, ← Multiset.coe_add, hfull, tsub_self] at hx
      exact Multiset.not_mem_zero x hx
  · -- at capacity, new item strictly larger than the root: replace the root
    have hpos : 0 < h.data.length := by omega
    obtain ⟨d0, tail, hd⟩ : ∃ d0 tail, h.data = d0 :: tail := by
      cases hdata : h.data with
      | nil => rw [hdata] at hpos; simp at hpos
      | cons a b => exact ⟨a, b, rfl⟩
    show Selects h.k (minHeap.down (h.data.set 0 it) 0) (pushed ++ [it])
    rw [hd] at hsub hlen hthr hh hgt hsubc hlt ⊢
    rw [List.set_cons_zero]
    have hperm : (minHeap.down (it :: tail) 0).Perm (it :: tail) := down_perm _ 0
    have hcoe : ((minHeap.down (it :: tail) 0 : List item) : Multiset item) =
        it ::ₘ ↑tail := by
      rw [Multiset.coe_eq_coe.mpr hperm]
      rfl
    have hd0 : idx (d0 :: tail) 0 = d0 := by
      simp [idx]
    rw [hd0] at hgt
    have hroot : ∀ y ∈ d0 :: tail, d0.Size ≤ y.Size := by
      intro y hy
      have := root_min_mem (d0 :: tail) hh y hy
      rw [hd0] at this
      exact this
    refine ⟨?_, ?_, ?_⟩
    · rw [hcoe, ← Multiset.coe_add]
      calc it ::ₘ (tail : Multiset item) ≤ it ::ₘ ↑pushed :=
            (Multiset.cons_le_cons_iff it).mpr
              (le_trans (Multiset.le_cons_self _ d0) hsub)
        _ = ↑(pushed ++ [it]) := by
            rw [← Multiset.singleton_add, add_comm, ← Multiset.coe_singleton,
              Multiset.coe_add]
    · rw [hperm.length_eq]
      simp only [List.length_cons, List.length_append, List.length_nil] at hlen ⊢
      push_cast at hlen ⊢
      omega
    · intro x hx y hy
      rw [hcoe] at hx
      have hxd0 : x.Size ≤ d0.Size := by
        rcases eq_or_ne x d0 with rfl | hxd
        · exact le_refl _
        · apply hthr x ?_ d0 (by simp)
          have hcnt : Multiset.count x (↑pushed : Multiset item) >
              Multiset.count x (↑(d0 :: tail) : Multiset item) := by
            rw [← Multiset.count_pos, Multiset.count_sub] at hx
            rw [← Multiset.coe_add, Multiset.count_add, Multiset.coe_singleton,
              Multiset.count_singleton, Multiset.count_cons] at hx
            rw [← Multiset.cons_coe, Multiset.count_cons, if_neg hxd]
            rcases eq_or_ne x it with rfl | hxit
            · simp only [if_pos rfl] at hx
              omega
            · simp only [if_neg hxit] at hx
              omega
          rw [← Multiset.count_pos, Multiset.count_sub]
          omega
      have hymem : y ∈ it :: tail := hperm.mem_iff.mp hy
      rcases List.mem_cons.mp hymem with rfl | hytail
      · exact le_trans hxd0 (le_of_lt hgt)
      · exact le_trans hxd0 (hroot y (List.mem_cons_of_mem d0 hytail))
  · -- at capacity, new item not larger: discard it
    have hpos : 0 < h.data.length := by omega
    refine ⟨?_, ?_, ?_⟩
    · exact le_trans hsub
        (by rw [← Multiset.coe_add]; exact self_le_add_right _ _)
    · simp only [List.length_append, List.length_cons, List.length_nil]
      push_cast
      omega
    · intro x hx y hy
      have hit : it.Size ≤ (idx h.data 0).Size := by omega
      rcases eq_or_ne x it with rfl | hxit
      · exact le_trans hit (root_min_mem h.data hh y hy)
      · apply hthr x ?_ y hy
        rw [← Multiset.count_pos, Multiset.count_sub] at hx ⊢
        rw [← Multiset.coe_add, Multiset.count_add, Multiset.coe_singleton,
          Multiset.count_singleton, if_neg hxit] at hx
        omega

theorem pushAll_inv : ∀ (l : List item) (h : minHeap) (pushed : List item),
    IsHeap h.data → Selects h.k h.data pushed →
    IsHeap (pushAll h l).data ∧ (pushAll h l).k = h.k ∧
      Selects h.k (pushAll h l).data (pushed ++ l) := by
  intro l
  induction l with
  | nil =>
    intro h pushed hh hsel
    refine ⟨hh, rfl, by simpa using hsel⟩
  | cons x l ih =>
    intro h pushed hh hsel
    have hh2 := isHeap_push h x hh
    have hsel2 := selects_push h x pushed hh hsel
    have hk2 := push_k h x
    have step := ih (h.push x) (pushed ++ [x]) hh2 (by rw [hk2]; exact hsel2)
    have hfold : pushAll h (x :: l) = pushAll (h.push x) l := by
      simp [pushAll]
    rw [hfold]
    refine ⟨step.1, by rw [step.2.1, hk2], ?_⟩
    have hstep := step.2.2
    rw [hk2] at hstep
    simpa [List.append_assoc] using hstep

/-! ## From the selection invariant to the sorted top-K equality -/

theorem threshold_map (held pushed : List item)
    (hsub : (held : Multiset item) ≤ ↑pushed)
    (hthr : ∀ x ∈ (↑pushed : Multiset item) - ↑held, ∀ y ∈ held,
      x.Size ≤ y.Size) :
    ∀ s ∈ ((pushed.map item.Size : List Int) : Multiset Int) -
        ↑(held.map item.Size),
      ∀ a ∈ held.map item.Size, s ≤ a := by
  intro s hs a ha
  obtain ⟨y, hy, rfl⟩ := List.mem_map.mp ha
  have hcnt : Multiset.count s (↑(held.map item.Size) : Multiset Int) <
      Multiset.count s (↑(pushed.map item.Size) : Multiset Int) := by
    rw [← Multiset.count_pos, Multiset.count_sub] at hs
    omega
  rw [← Multiset.map_coe, ← Multiset.map_coe, Multiset.count_map,
    Multiset.count_map] at hcnt
  have hfle : Multiset.filter (fun z => s = item.Size z)
        (↑held : Multiset item) ≤
      Multiset.filter (fun z => s = item.Size z) ↑pushed :=
    Multiset.filter_le_filter _ hsub
  have hne : Multiset.filter (fun z => s = item.Size z)
        (↑pushed : Multiset item) -
      Multiset.filter (fun z => s = item.Size z) ↑held ≠ 0 := by
    intro h0
    rw [tsub_eq_zero_iff_le] at h0
    have := Multiset.card_le_card h0
    omega
  obtain ⟨x, hxmem⟩ := Multiset.exists_mem_of_ne_zero hne
  have hxp : x ∈ Multiset.filter (fun z => s = item.Size z)
      (↑pushed : Multiset item) :=
    Multiset.mem_of_le (Multiset.sub_le_self _ _) hxmem
  have hxs : s = x.Size := (Multiset.mem_filter.mp hxp).2
  have hxd : x ∈ (↑pushed : Multiset item) - ↑held := by
    rw [← Multiset.count_pos, Multiset.count_sub] at hxmem ⊢
    rw [Multiset.count_filter, Multiset.count_filter, if_pos hxs,
      if_pos hxs] at hxmem
    omega
  rw [hxs]
  exact hthr x hxd y hy

theorem cons_sub_cons_int (a : Int) (s t : Multiset Int) :
    (a ::ₘ s) - (a ::ₘ t) = s - t := by
  ext b
  by_cases hba : b = a <;>
    simp [hba, Multiset.count_sub, Multiset.count_cons]

/-- A sorted list that is a sub-multiset of a sorted list and dominates
everything left out is exactly the prefix of that length. -/
theorem top_select : ∀ (A S : List Int), List.Sorted (· ≥ ·) A →
    List.Sorted (· ≥ ·) S → (A : Multiset Int) ≤ ↑S →
    (∀ x ∈ (↑S : Multiset Int) - ↑A, ∀ a ∈ A, x ≤ a) →
    A = S.take A.length := by
  intro A
  induction A with
  | nil =>
    intro S h1 h2 h3 h4
    simp
  | cons a A2 ih =>
    intro S hA hS hsub hthr
    cases S with
    | nil =>
      have := Multiset.card_le_card hsub
      simp at this
    | cons s S2 =>
      have has : a = s := by
        have hamem : a ∈ s :: S2 := by
          have h2 : a ∈ (↑(s :: S2) : Multiset Int) :=
            Multiset.mem_of_le hsub (by simp)
          simpa using h2
        have hle1 : a ≤ s := by
          rcases List.mem_cons.mp hamem with rfl | hmem
          · exact le_refl a
          · exact List.rel_of_sorted_cons hS a hmem
        have hle2 : s ≤ a := by
          by_cases hsd : s ∈ (↑(s :: S2) : Multiset Int) - ↑(a :: A2)
          · exact hthr s hsd a (by simp)
          · rw [← Multiset.count_pos, Multiset.count_sub] at hsd
            have h1 : 0 < Multiset.count s (↑(s :: S2) : Multiset Int) := by
              rw [Multiset.count_pos]
              simp
            have h2 : 0 < Multiset.count s (↑(a :: A2) : Multiset Int) := by
              omega
            have hsmem : s ∈ a :: A2 := by
              rw [Multiset.count_pos] at h2
              simpa using h2
            rcases List.mem_cons.mp hsmem with heq | hmem
            · exact le_of_eq heq
            · exact List.rel_of_sorted_cons hA s hmem
        exact le_antisymm hle1 hle2
      subst has
      have hsub2 : (A2 : Multiset Int) ≤ ↑S2 := by
        rw [← Multiset.cons_coe, ← Multiset.cons_coe] at hsub
        exact (Multiset.cons_le_cons_iff a).mp hsub
      have hthr2 : ∀ x ∈ (↑S2 : Multiset Int) - ↑A2, ∀ b ∈ A2, x ≤ b := by
        intro x hx b hb
        have hx2 : x ∈ (↑(a :: S2) : Multiset Int) - ↑(a :: A2) := by
          rw [← Multiset.cons_coe, ← Multiset.cons_coe, cons_sub_cons_int]
          exact hx
        exact hthr x hx2 b (List.mem_cons_of_mem a hb)
      have ihres := ih S2 hA.of_cons hS.of_cons hsub2 hthr2
      rw [List.length_cons, List.take_succ_cons, ← ihres]

/-- The comparison used on plain sizes, mirroring `sizeGE` on items. -/
theorem intGE_trans (a b c : Int) (hab : (decide (b ≤ a)) = true)
    (hbc : (decide (c ≤ b)) = true) : (decide (c ≤ a)) = true := by
  simp only [decide_eq_true_eq] at *
  omega

theorem intGE_total (a b : Int) : (decide (b ≤ a) || decide (a ≤ b)) = true := by
  simp only [Bool.or_eq_true, decide_eq_true_eq]
  omega

theorem sortedDesc_pairwise (h : minHeap) :
    List.Pairwise (fun a b : item => b.Size ≤ a.Size) h.sortedDesc := by
  have hs := @List.sorted_mergeSort item sizeGE sizeGE_trans sizeGE_total
    h.data
  have hiff : ∀ a b : item, (sizeGE a b = true) = (b.Size ≤ a.Size) := by
    intro a b
    simp [sizeGE]
  simpa [minHeap.sortedDesc, hiff] using hs

theorem pushAll_nonpos : ∀ (l : List item) (h : minHeap), h.k ≤ 0 →
    pushAll h l = h := by
  intro l
  induction l with
  | nil =>
    intro h hk
    rfl
  | cons x l ih =>
    intro h hk
    have hp : h.push x = h := by
      rw [minHeap.push]
      simp [hk]
    have hfold : pushAll h (x :: l) = pushAll (h.push x) l := by
      simp [pushAll]
    rw [hfold, hp]
    exact ih h hk

/-- C1: after any sequence of pushes into a selector of capacity K, the
snapshot holds exactly `min(K, N)` elements (for `K ≥ 0`), never more than
`K`, and its sizes in descending order are exactly the first `K` of the
descending sort of all pushed sizes (ties broken arbitrarily); for
`K ≤ 0` every push is discarded and the selector stays empty. -/
theorem minHeap_topk (K : Int) (l : List item) :
    ((0 : Int) ≤ K →
      ((pushAll (mkHeap K) l).sortedDesc.length : Int) =
        min K (l.length : Int)) ∧
    (((pushAll (mkHeap K) l).data.length : Int) ≤ max K 0) ∧
    (pushAll (mkHeap K) l).sortedDesc.map item.Size =
      ((l.map item.Size).mergeSort (fun a b => decide (b ≤ a))).take K.toNat ∧
    (K ≤ 0 → pushAll (mkHeap K) l = mkHeap K) := by
  have hheap0 : IsHeap (mkHeap K).data := by
    intro j hj0 hjlen
    simp [mkHeap] at hjlen
  have hsel0 : Selects (mkHeap K).k (mkHeap K).data [] := by
    refine ⟨zero_le _, ?_, ?_⟩
    · simp [mkHeap]
    · intro x hx y hy
      simp [mkHeap] at hy
  obtain ⟨hheap, hkk, hsel⟩ := pushAll_inv l (mkHeap K) [] hheap0 hsel0
  rw [show (mkHeap K).k = K from rfl] at hsel
  rw [show (([] : List item) ++ l) = l from by simp] at hsel
  obtain ⟨hsub, hlen, hthr⟩ := hsel
  have hslen : (pushAll (mkHeap K) l).sortedDesc.length =
      (pushAll (mkHeap K) l).data.length := by
    simp [minHeap.sortedDesc, List.length_mergeSort]
  refine ⟨?_, ?_, ?_, ?_⟩
  · intro hK
    rw [hslen]
    omega
  · omega
  · -- the sorted sizes equality
    have hpermA : (pushAll (mkHeap K) l).sortedDesc.Perm
        (pushAll (mkHeap K) l).data := List.mergeSort_perm _ _
    have hpermS : ((l.map item.Size).mergeSort
        (fun a b => decide (b ≤ a))).Perm (l.map item.Size) :=
      List.mergeSort_perm _ _
    have hA : List.Sorted (· ≥ ·)
        ((pushAll (mkHeap K) l).sortedDesc.map item.Size) := by
      rw [List.Sorted, List.pairwise_map]
      exact sortedDesc_pairwise _
    have hS : List.Sorted (· ≥ ·)
        ((l.map item.Size).mergeSort (fun a b => decide (b ≤ a))) := by
      have hs := @List.sorted_mergeSort Int (fun a b : Int => decide (b ≤ a))
        intGE_trans intGE_total (l.map item.Size)
      simpa using hs
    have hcoeA : (((pushAll (mkHeap K) l).sortedDesc.map item.Size :
        List Int) : Multiset Int) =
        ↑((pushAll (mkHeap K) l).data.map item.Size) :=
      Multiset.coe_eq_coe.mpr (hpermA.map item.Size)
    have hcoeS : (((l.map item.Size).mergeSort (fun a b => decide (b ≤ a)) :
        List Int) : Multiset Int) = ↑(l.map item.Size) :=
      Multiset.coe_eq_coe.mpr hpermS
    have hsubAS : (((pushAll (mkHeap K) l).sortedDesc.map item.Size :
        List Int) : Multiset Int) ≤
        ↑((l.map item.Size).mergeSort (fun a b => decide (b ≤ a))) := by
      rw [hcoeA, hcoeS, ← Multiset.map_coe, ← Multiset.map_coe]
      exact Multiset.map_le_map hsub
    have hthrAS : ∀ x ∈ (↑((l.map item.Size).mergeSort
          (fun a b => decide (b ≤ a))) : Multiset Int) -
          ↑((pushAll (mkHeap K) l).sortedDesc.map item.Size),
        ∀ a ∈ (pushAll (mkHeap K) l).sortedDesc.map item.Size, x ≤ a := by
      intro x hx a ha
      rw [hcoeA, hcoeS] at hx
      have ha2 : a ∈ (pushAll (mkHeap K) l).data.map item.Size := by
        have := (hpermA.map item.Size).mem_iff.mp ha
        exact this
      exact threshold_map (pushAll (mkHeap K) l).data l hsub hthr x hx a ha2
    have htake := top_select _ _ hA hS hsubAS hthrAS
    rw [htake]
    apply List.take_eq_take.mpr
    rw [List.length_map, hslen, List.length_mergeSort, List.length_map]
    omega
  · intro hK
    exact pushAll_nonpos l (mkHeap K) hK

/-- Witness for C1 at a concrete input. -/
theorem minHeap_topk_witness :
    ((pushAll (mkHeap 2) [⟨"a", 10⟩, ⟨"b", 50⟩, ⟨"c", 5⟩]).sortedDesc.length :
        Int) = min 2 (([⟨"a", 10⟩, ⟨"b", 50⟩, ⟨"c", 5⟩] :
          List item).length : Int) ∧
    (pushAll (mkHeap 2) [⟨"a", 10⟩, ⟨"b", 50⟩, ⟨"c", 5⟩]).sortedDesc.map
        item.Size =
      ((([⟨"a", 10⟩, ⟨"b", 50⟩, ⟨"c", 5⟩] : List item).map
          item.Size).mergeSort (fun a b => decide (b ≤ a))).take
        (2 : Int).toNat ∧
    (pushAll (mkHeap 2) [⟨"a", 10⟩, ⟨"b", 50⟩, ⟨"c", 5⟩]).data.length ≤ 2 := by
  have h := minHeap_topk 2 [⟨"a", 10⟩, ⟨"b", 50⟩, ⟨"c", 5⟩]
  refine ⟨h.1 (by decide), h.2.2.1, ?_⟩
  have h2 := h.2.1
  omega

end GoSize
